import Mathlib

/-
  Verification of the core subsystems of the PyExplorer file manager
  (src/main.py): the back/forward navigation history, the asynchronous
  file-transfer worker and its progress events, the directory-merge copy,
  the trash restore lifecycle, and the removable-device mount helpers.

  Each definition is a shallow embedding of the corresponding Python code;
  machine integers are modelled as Nat, the Python expression
  int(done*100/total_files) is modelled as Nat floor division (exact for
  every realistic operand size), and the filesystem is modelled explicitly.
-/

namespace PyExplorer

/-! ### Navigation history

FileTab keeps `self.history : list of paths` and `self.history_index : int`.
It is initialised in FileTab.__init__ (src/main.py lines 274-275) as
`[current_path]` with index 0.  `set_directory` (lines 331-335) updates it,
`go_back` / `go_forward` (lines 480-504) move the index only. -/

structure HistoryState where
  history : List String
  history_index : Nat
deriving DecidableEq, Repr

/-- FileTab.__init__ lines 274-275: `self.history = [self.current_path]`,
`self.history_index = 0`. -/
def historyInit (start : String) : HistoryState :=
  { history := [start], history_index := 0 }

/-- The history update of FileTab.set_directory, lines 331-335:
if the index is not at the tail, truncate to `history[:index+1]`,
then append the new path and point the index at the new last element. -/
def pushHistory (s : HistoryState) (p : String) : HistoryState :=
  let h :=
    if s.history_index < s.history.length - 1 then
      s.history.take (s.history_index + 1)
    else
      s.history
  { history := h ++ [p], history_index := (h ++ [p]).length - 1 }

/-- FileTab.go_back, lines 480-491: decrement the index when positive and
report True; otherwise leave the state alone and report False. -/
def go_back (s : HistoryState) : HistoryState × Bool :=
  if 0 < s.history_index then
    ({ s with history_index := s.history_index - 1 }, true)
  else
    (s, false)

/-- FileTab.go_forward, lines 493-504: increment the index when it is not at
the last entry and report True; otherwise leave the state alone and
report False. -/
def go_forward (s : HistoryState) : HistoryState × Bool :=
  if s.history_index < s.history.length - 1 then
    ({ s with history_index := s.history_index + 1 }, true)
  else
    (s, false)

/-- The operations the UI can perform on the history. -/
inductive NavOp where
  | push (p : String)
  | back
  | forward
deriving DecidableEq, Repr

def navStep (s : HistoryState) (o : NavOp) : HistoryState :=
  match o with
  | .push p => pushHistory s p
  | .back => (go_back s).1
  | .forward => (go_forward s).1

/-- A whole session: start at `start`, then run the given operations. -/
def navRun (start : String) (ops : List NavOp) : HistoryState :=
  ops.foldl navStep (historyInit start)

/-- The invariant of HistoryState: non-empty entry list, index in bounds. -/
def navInv (s : HistoryState) : Prop :=
  s.history ≠ [] ∧ s.history_index < s.history.length

lemma navInv_init (start : String) : navInv (historyInit start) := by
  constructor <;> simp [historyInit]

lemma navInv_step (s : HistoryState) (o : NavOp) (h : navInv s) :
    navInv (navStep s o) := by
  obtain ⟨hne, hlt⟩ := h
  cases o with
  | push p =>
      have key : ∀ (l : List String) (q : String),
          navInv { history := l ++ [q], history_index := (l ++ [q]).length - 1 } := by
        intro l q
        constructor
        · simp
        · simp
      simpa [navStep, pushHistory] using key _ p
  | back =>
      simp only [navStep, go_back]
      split
      · exact ⟨hne, show s.history_index - 1 < s.history.length by omega⟩
      · exact ⟨hne, hlt⟩
  | forward =>
      simp only [navStep, go_forward]
      split
      · rename_i hc
        exact ⟨hne, show s.history_index + 1 < s.history.length by omega⟩
      · exact ⟨hne, hlt⟩

lemma navInv_run (start : String) (ops : List NavOp) :
    navInv (navRun start ops) := by
  have : ∀ (l : List NavOp) (s : HistoryState), navInv s →
      navInv (l.foldl navStep s) := by
    intro l
    induction l with
    | nil => intro s hs; exact hs
    | cons o rest ih => intro s hs; exact ih _ (navInv_step s o hs)
  exact this ops _ (navInv_init start)

/-- C3: pushing a path while the index is away from the tail truncates the
forward branch to `history[:index+1]` before appending, and points the
index at the new last entry; in particular from [A,B,C,D,E] at index 4,
two back steps followed by push F give [A,B,C,F] at index 3. -/
theorem nav_push_truncates_forward_branch :
    (∀ (s : HistoryState) (p : String),
      s.history_index < s.history.length - 1 →
      pushHistory s p =
        { history := s.history.take (s.history_index + 1) ++ [p],
          history_index := s.history_index + 1 }) ∧
    pushHistory
      (go_back (go_back { history := ["A", "B", "C", "D", "E"],
                          history_index := 4 }).1).1 "F" =
      { history := ["A", "B", "C", "F"], history_index := 3 } := by
  constructor
  · intro s p h
    have h1 : s.history_index + 1 ≤ s.history.length := by omega
    simp only [pushHistory, if_pos h]
    congr 1
    simp [List.length_take]
    omega
  · decide

theorem nav_push_truncates_forward_branch_witness :
    pushHistory { history := ["A", "B", "C"], history_index := 1 } "Z" =
      { history := ["A", "B", "Z"], history_index := 2 } :=
  nav_push_truncates_forward_branch.1
    { history := ["A", "B", "C"], history_index := 1 } "Z" (by decide)

/-- C9: every history state reachable from initialization by push, back and
forward operations has a non-empty entry list with the index in bounds,
and back at index 0 and forward at the last index are no-ops that report
False instead of erring. -/
theorem nav_invariant_and_noop_bounds (start : String) (ops : List NavOp) :
    (navRun start ops).history ≠ [] ∧
    (navRun start ops).history_index < (navRun start ops).history.length ∧
    ((navRun start ops).history_index = 0 →
      go_back (navRun start ops) = (navRun start ops, false)) ∧
    ((navRun start ops).history_index = (navRun start ops).history.length - 1 →
      go_forward (navRun start ops) = (navRun start ops, false)) := by
  obtain ⟨hne, hlt⟩ := navInv_run start ops
  refine ⟨hne, hlt, ?_, ?_⟩
  · intro h0
    simp [go_back, h0]
  · intro hend
    have : ¬ (navRun start ops).history_index <
        (navRun start ops).history.length - 1 := by omega
    simp [go_forward, this]

theorem nav_invariant_and_noop_bounds_witness :
    go_back (navRun "A" [NavOp.push "B", NavOp.back]) =
      (navRun "A" [NavOp.push "B", NavOp.back], false) :=
  (nav_invariant_and_noop_bounds "A" [NavOp.push "B", NavOp.back]).2.2.1 (by decide)

/-- C10: back and forward never touch the entry list itself; only the index
changes, so the forward branch survives any sequence of back and forward
calls and is discarded only by a later push. -/
theorem back_forward_preserve_entries (s : HistoryState) :
    ((go_back s).1).history = s.history ∧
    ((go_forward s).1).history = s.history := by
  constructor
  · unfold go_back; split <;> rfl
  · unfold go_forward; split <;> rfl

/-! ### FileOpWorker: the transfer engine and its progress events

FileOpWorker.run (src/main.py lines 79-120) first pre-scans every source
with os.walk, building a flat file list whose length (floored at 1) becomes
total_files, then processes the original item list.  For a copy of a
directory whose target already exists it re-walks the subtree copying each
file and emitting one progress event per file; for a copy of a directory
whose target does not exist it calls shutil.copytree and emits a single
event for the whole subtree; for a plain file copy and for any move it
emits a single event.  Each event carries int(done*100/total_files), with
done incremented just before the emission.  On normal completion it emits
finished_ok; on the first exception it emits finished_error — these two
signals are the only terminal states the worker can produce. -/

/-- A source filesystem entry: a file (with content) or a directory. -/
inductive Entry where
  | file (name : String) (data : Nat)
  | dir (name : String) (children : List Entry)

mutual

/-- The number of files os.walk finds under an entry (the pre-scan count:
a file counts 1; a directory counts all files in its subtree). -/
def countFiles : Entry → Nat
  | .file _ _ => 1
  | .dir _ cs => countFilesList cs

def countFilesList : List Entry → Nat
  | [] => 0
  | e :: es => countFiles e + countFilesList es

end

/-- One submitted item together with the fact the worker branches on:
whether dest / item.name already exists when the item is processed. -/
structure SrcItem where
  entry : Entry
  targetExists : Bool

/-- countFiles summed over the whole batch: the length of file_list built
by the pre-scan loop of FileOpWorker.run (lines 81-89). -/
def countItemsFiles : List SrcItem → Nat
  | [] => 0
  | it :: rest => countFiles it.entry + countItemsFiles rest

/-- The percent sequence of k consecutive events starting after done units:
event i carries int((done+i+1)*100/total). -/
def evSeq (total done k : Nat) : List Nat :=
  (List.range k).map (fun i => (done + i + 1) * 100 / total)

/-- The files directly inside a directory level (the files list of one
os.walk step): each increments done by 1 and emits one event. -/
def emitTopFiles (total done : Nat) : List Entry → Nat × List Nat
  | [] => (done, [])
  | .file _ _ :: es =>
      let r := emitTopFiles total (done + 1) es
      (r.1, (done + 1) * 100 / total :: r.2)
  | .dir _ _ :: es => emitTopFiles total done es

mutual

/-- Walking the subdirectories of one os.walk level in order, copying the
files of each subtree and emitting one event per file. -/
def walkDirs (total done : Nat) : List Entry → Nat × List Nat
  | [] => (done, [])
  | .file _ _ :: es => walkDirs total done es
  | .dir _ cs :: es =>
      let r1 := walkTree total done cs
      let r2 := walkDirs total r1.1 es
      (r2.1, r1.2 ++ r2.2)

/-- The merge branch of FileOpWorker.run (lines 98-105): os.walk the source
directory top-down, copying each file into the existing target and emitting
one progress event per copied file.  Returns the new done counter and the
emitted percents. -/
def walkTree (total done : Nat) (cs : List Entry) : Nat × List Nat :=
  let rf := emitTopFiles total done cs
  let r1 := walkDirs total rf.1 cs
  (r1.1, rf.2 ++ r1.2)

end

/-- Processing one item of the batch (the body of the transfer loop,
lines 92-117): the op string is compared against copy and move exactly as
the Python code compares self.op. -/
def stepItem (op : String) (total done : Nat) (it : SrcItem) : Nat × List Nat :=
  if op = "copy" then
    match it.entry with
    | .dir _ cs =>
        if it.targetExists then
          walkTree total done cs
        else
          (done + 1, [(done + 1) * 100 / total])
    | .file _ _ => (done + 1, [(done + 1) * 100 / total])
  else if op = "move" then
    (done + 1, [(done + 1) * 100 / total])
  else
    (done, [])

/-- The transfer loop over the original item list. -/
def runItems (op : String) (total done : Nat) : List SrcItem → Nat × List Nat
  | [] => (done, [])
  | it :: rest =>
      let r := stepItem op total done it
      let r2 := runItems op total r.1 rest
      (r2.1, r.2 ++ r2.2)

/-- The terminal signals FileOpWorker can emit: finished_ok and
finished_error(message).  There is no third signal. -/
inductive Terminal where
  | completed
  | failed (msg : String)
deriving DecidableEq, Repr

/-- FileOpWorker.run on the no-exception path: pre-scan fixing
total_files = max(len(file_list), 1), then the transfer loop, then
finished_ok.  Returns the emitted percents and the terminal signal. -/
def workerRun (op : String) (items : List SrcItem) : List Nat × Terminal :=
  let total := max (countItemsFiles items) 1
  ((runItems op total 0 items).2, Terminal.completed)

/-- How many events one item produces (and how much done grows by): one per
file for a merged directory, one for the whole unit otherwise. -/
def unitCount (op : String) (it : SrcItem) : Nat :=
  if op = "copy" then
    match it.entry with
    | .dir _ cs => if it.targetExists then countFilesList cs else 1
    | .file _ _ => 1
  else if op = "move" then 1
  else 0

def unitsCount (op : String) : List SrcItem → Nat
  | [] => 0
  | it :: rest => unitCount op it + unitsCount op rest

lemma evSeq_zero (total done : Nat) : evSeq total done 0 = [] := by
  simp [evSeq]

lemma evSeq_succ (total done k : Nat) :
    evSeq total done (k + 1) = evSeq total done k ++ [(done + k + 1) * 100 / total] := by
  unfold evSeq
  rw [List.range_succ, List.map_append]
  simp

lemma evSeq_one (total done : Nat) :
    evSeq total done 1 = [(done + 1) * 100 / total] := by
  have h := evSeq_succ total done 0
  simpa [evSeq] using h

lemma evSeq_append (total done a b : Nat) :
    evSeq total done (a + b) = evSeq total done a ++ evSeq total (done + a) b := by
  induction b with
  | zero => simp [evSeq]
  | succ n ih =>
      have h1 : a + (n + 1) = (a + n) + 1 := by omega
      rw [h1, evSeq_succ, ih, evSeq_succ]
      have harg : done + (a + n) + 1 = done + a + n + 1 := by omega
      rw [harg]
      simp [List.append_assoc]

/-- The number of files directly at one directory level. -/
def topCount : List Entry → Nat
  | [] => 0
  | .file _ _ :: es => 1 + topCount es
  | .dir _ _ :: es => topCount es

/-- The number of files strictly below one directory level. -/
def deepCount : List Entry → Nat
  | [] => 0
  | .file _ _ :: es => deepCount es
  | .dir _ cs :: es => countFilesList cs + deepCount es

lemma countFilesList_split (cs : List Entry) :
    countFilesList cs = topCount cs + deepCount cs := by
  induction cs with
  | nil => simp [countFilesList, topCount, deepCount]
  | cons e es ih =>
      cases e with
      | file n d =>
          simp only [countFilesList, countFiles, topCount, deepCount, ih]
          omega
      | dir n cs2 =>
          simp only [countFilesList, countFiles, topCount, deepCount, ih]
          omega

lemma emitTopFiles_spec (total : Nat) (cs : List Entry) : ∀ done : Nat,
    emitTopFiles total done cs = (done + topCount cs, evSeq total done (topCount cs)) := by
  induction cs with
  | nil => intro done; simp [emitTopFiles, topCount, evSeq]
  | cons e es ih =>
      intro done
      cases e with
      | file n d =>
          simp only [emitTopFiles, topCount]
          rw [ih (done + 1)]
          have hval : evSeq total done (1 + topCount es) =
              (done + 1) * 100 / total :: evSeq total (done + 1) (topCount es) := by
            rw [evSeq_append total done 1 (topCount es), evSeq_one]
            rfl
          rw [hval]
          have harg : done + (1 + topCount es) = done + 1 + topCount es := by omega
          rw [harg]
      | dir n cs2 =>
          simp only [emitTopFiles, topCount]
          exact ih done

lemma walkDirs_spec (total : Nat) : ∀ (done : Nat) (cs : List Entry),
    walkDirs total done cs = (done + deepCount cs, evSeq total done (deepCount cs)) := by
  refine walkDirs.induct total
    (fun done cs =>
      walkDirs total done cs = (done + deepCount cs, evSeq total done (deepCount cs)))
    (fun done cs =>
      walkTree total done cs =
        (done + countFilesList cs, evSeq total done (countFilesList cs)))
    ?_ ?_ ?_ ?_
  · intro done
    simp [walkDirs, deepCount, evSeq]
  · intro done name data es ih
    simpa [walkDirs, deepCount] using ih
  · refine fun done name children es ih2 ih1 => ?_
    rw [ih2] at ih1
    simp only at ih1
    simp only [walkDirs]
    rw [ih2]
    simp only
    rw [ih1]
    simp only [deepCount]
    rw [Prod.mk.injEq]
    constructor
    · omega
    · rw [evSeq_append total done (countFilesList children) (deepCount es)]
  · refine fun done cs ih1 => ?_
    rw [emitTopFiles_spec total cs done] at ih1
    simp only at ih1
    simp only [walkTree]
    rw [emitTopFiles_spec total cs done]
    dsimp only
    rw [ih1]
    rw [countFilesList_split cs]
    rw [Prod.mk.injEq]
    constructor
    · omega
    · rw [evSeq_append total done (topCount cs) (deepCount cs)]

lemma walkTree_spec (total done : Nat) (cs : List Entry) :
    walkTree total done cs =
      (done + countFilesList cs, evSeq total done (countFilesList cs)) := by
  have h1 := emitTopFiles_spec total cs done
  have h2 := walkDirs_spec total (done + topCount cs) cs
  simp only [walkTree]
  rw [h1]
  dsimp only
  rw [h2, countFilesList_split cs]
  rw [Prod.mk.injEq]
  constructor
  · omega
  · rw [evSeq_append total done (topCount cs) (deepCount cs)]

lemma stepItem_spec (op : String) (total done : Nat) (it : SrcItem) :
    stepItem op total done it =
      (done + unitCount op it, evSeq total done (unitCount op it)) := by
  by_cases hc : op = "copy"
  · simp only [stepItem, unitCount, if_pos hc]
    cases hentry : it.entry with
    | file n d => simp [evSeq_one]
    | dir n cs =>
        by_cases ht : it.targetExists = true
        · simp only [if_pos ht]
          exact walkTree_spec total done cs
        · simp [if_neg ht, evSeq_one]
  · by_cases hm : op = "move"
    · simp [stepItem, unitCount, hc, hm, evSeq_one]
    · simp [stepItem, unitCount, hc, hm, evSeq]

lemma runItems_spec (op : String) (total : Nat) : ∀ (items : List SrcItem) (done : Nat),
    runItems op total done items =
      (done + unitsCount op items, evSeq total done (unitsCount op items)) := by
  intro items
  induction items with
  | nil => intro done; simp [runItems, unitsCount, evSeq]
  | cons it rest ih =>
      intro done
      simp only [runItems]
      rw [stepItem_spec op total done it]
      simp only
      rw [ih (done + unitCount op it)]
      simp only [unitsCount]
      rw [Prod.mk.injEq]
      constructor
      · omega
      · rw [evSeq_append total done (unitCount op it) (unitsCount op rest)]

/-- The whole event stream of a no-failure run is the sequence of
consecutive percents floor(k*100/total) for k = 1..unitsCount. -/
lemma workerRun_events (op : String) (items : List SrcItem) :
    (workerRun op items).1 =
      evSeq (max (countItemsFiles items) 1) 0 (unitsCount op items) := by
  simp only [workerRun]
  rw [runItems_spec op (max (countItemsFiles items) 1) items 0]

/-- An item that contributes one event per pre-scanned file: a plain file,
or a directory merged file-by-file into an existing target.  Wholesale
copies (shutil.copytree) and moves are excluded: they emit one event for
an arbitrarily large subtree. -/
def goodUnit (it : SrcItem) : Bool :=
  match it.entry with
  | .file _ _ => true
  | .dir _ _ => it.targetExists

lemma unitCount_good (it : SrcItem) (h : goodUnit it = true) :
    unitCount "copy" it = countFiles it.entry := by
  rcases it with ⟨e, t⟩
  cases e with
  | file n d => simp [unitCount, countFiles]
  | dir n cs =>
      simp only [goodUnit] at h
      simp [unitCount, countFiles, h]

lemma unitsCount_good (items : List SrcItem) (h : ∀ it ∈ items, goodUnit it = true) :
    unitsCount "copy" items = countItemsFiles items := by
  induction items with
  | nil => simp [unitsCount, countItemsFiles]
  | cons it rest ih =>
      simp only [unitsCount, countItemsFiles]
      rw [unitCount_good it (h it (by simp)), ih (fun x hx => h x (by simp [hx]))]

lemma evSeq_pairwise (total done k : Nat) :
    (evSeq total done k).Pairwise (· ≤ ·) := by
  unfold evSeq
  rw [List.pairwise_map]
  exact (List.pairwise_lt_range k).imp
    (fun hab => Nat.div_le_div_right (by omega))

lemma evSeq_length (total done k : Nat) : (evSeq total done k).length = k := by
  simp [evSeq]

lemma evSeq_getLast (total done k : Nat) (hk : 0 < k) :
    (evSeq total done k).getLast? = some ((done + k) * 100 / total) := by
  obtain ⟨m, rfl⟩ : ∃ m, k = m + 1 := ⟨k - 1, by omega⟩
  rw [evSeq_succ, List.getLast?_concat]
  have harg : done + m + 1 = done + (m + 1) := by omega
  rw [harg]

/-- C1 (amended): the progress percents of any no-failure run are
non-decreasing; and whenever every item of the batch is a plain file or a
directory merged into an existing target (so that each pre-scanned file is
one processing unit), a copy batch with N total files emits exactly N
events whose last one is 100.  (A wholesale-copied or moved subtree emits
a single event, so in general fewer than N events occur and the last
percent can fall short of 100.) -/
theorem transfer_progress_monotone_and_complete :
    (∀ (op : String) (items : List SrcItem),
      ((workerRun op items).1).Pairwise (· ≤ ·)) ∧
    (∀ items : List SrcItem,
      (∀ it ∈ items, goodUnit it = true) →
      1 ≤ countItemsFiles items →
      ((workerRun "copy" items).1).length = countItemsFiles items ∧
      ((workerRun "copy" items).1).getLast? = some 100) := by
  constructor
  · intro op items
    rw [workerRun_events]
    exact evSeq_pairwise _ _ _
  · intro items hg hN
    have hmax : max (countItemsFiles items) 1 = countItemsFiles items := by omega
    have hu : unitsCount "copy" items = countItemsFiles items := unitsCount_good items hg
    rw [workerRun_events, hmax, hu]
    refine ⟨evSeq_length _ _ _, ?_⟩
    rw [evSeq_getLast _ _ _ (by omega)]
    have h0 : 0 + countItemsFiles items = countItemsFiles items := by omega
    rw [h0, Nat.mul_div_cancel_left 100 (by omega : 0 < countItemsFiles items)]

theorem transfer_progress_monotone_and_complete_witness :
    ((workerRun "copy" [⟨Entry.file "a" 0, false⟩, ⟨Entry.file "b" 1, false⟩]).1).length = 2 ∧
    ((workerRun "copy" [⟨Entry.file "a" 0, false⟩, ⟨Entry.file "b" 1, false⟩]).1).getLast? =
      some 100 :=
  transfer_progress_monotone_and_complete.2
    [⟨Entry.file "a" 0, false⟩, ⟨Entry.file "b" 1, false⟩] (by decide) (by decide)

/-- The batch refuting C1 as stated: one directory of two files copied to a
destination where its target name does not yet exist. -/
def cexBatch1 : List SrcItem := [⟨Entry.dir "d" [Entry.file "a" 0, Entry.file "b" 1], false⟩]

/-- C1 (counterexample): the batch has N = 2 files, but shutil.copytree
emits a single event of int(1*100/2) = 50, so the run produces one event,
not two, and its last percent is 50, not 100. -/
theorem transfer_progress_copytree_counterexample :
    countItemsFiles cexBatch1 = 2 ∧
    (workerRun "copy" cexBatch1).1 = [50] ∧
    ¬ (((workerRun "copy" cexBatch1).1).length = countItemsFiles cexBatch1 ∧
       ((workerRun "copy" cexBatch1).1).getLast? = some 100) := by
  refine ⟨by decide, by decide, by decide⟩

/-- The batch refuting C8 as stated: two empty directories copied wholesale.
The pre-scan finds zero files, so total_files = max(0,1) = 1, yet each
copytree call increments done, producing percents 100 and then 200. -/
def cexBatch2 : List SrcItem := [⟨Entry.dir "e1" [], false⟩, ⟨Entry.dir "e2" [], false⟩]

/-- C8 (counterexample): an emitted percentComplete value of 200 exceeds
the claimed 0..100 range. -/
theorem percent_over_100_counterexample :
    (workerRun "copy" cexBatch2).1 = [100, 200] ∧
    ∃ e ∈ (workerRun "copy" cexBatch2).1, 100 < e := by
  refine ⟨by decide, by decide⟩

/-- C8 (amended): filesTotal = max(N,1) is at least 1 and fixed for the
whole run; every emitted percent equals floor(filesDone*100/filesTotal)
with filesDone its one-based position; and every percent is at most 100
whenever the number of processing units does not exceed filesTotal.
(Batches in which an empty directory is copied wholesale or moved make
filesDone overtake filesTotal and push percents beyond 100.) -/
theorem percent_formula_and_bound (op : String) (items : List SrcItem) :
    1 ≤ max (countItemsFiles items) 1 ∧
    (workerRun op items).1 =
      evSeq (max (countItemsFiles items) 1) 0 (unitsCount op items) ∧
    (unitsCount op items ≤ max (countItemsFiles items) 1 →
      ∀ e ∈ (workerRun op items).1, e ≤ 100) := by
  refine ⟨by omega, workerRun_events op items, ?_⟩
  intro hle e he
  rw [workerRun_events] at he
  unfold evSeq at he
  simp only [List.mem_map, List.mem_range] at he
  obtain ⟨i, hi, rfl⟩ := he
  have hTpos : 0 < max (countItemsFiles items) 1 := by omega
  have h1 : (0 + i + 1) * 100 ≤ (max (countItemsFiles items) 1) * 100 := by omega
  calc (0 + i + 1) * 100 / max (countItemsFiles items) 1
      ≤ (max (countItemsFiles items) 1) * 100 / max (countItemsFiles items) 1 :=
        Nat.div_le_div_right h1
    _ = 100 := Nat.mul_div_cancel_left 100 hTpos

theorem percent_formula_and_bound_witness :
    ∀ e ∈ (workerRun "copy" [⟨Entry.file "a" 0, false⟩]).1, e ≤ 100 :=
  (percent_formula_and_bound "copy" [⟨Entry.file "a" 0, false⟩]).2.2 (by decide)

/-- C7: the worker exposes no cooperative cancellation at all.  Its only
terminal signals are finished_ok (Completed) and finished_error (Failed);
no Cancelled state exists, and a run over a batch proceeds through every
unit and ends in Completed regardless of any cancel request the user makes
in the progress dialog, whose cancel button is never connected to the
worker. -/
theorem no_cancelled_terminal_state :
    (∀ t : Terminal, t = Terminal.completed ∨ ∃ m, t = Terminal.failed m) ∧
    workerRun "copy" [⟨Entry.file "a" 0, false⟩, ⟨Entry.file "b" 1, false⟩] =
      ([50, 100], Terminal.completed) := by
  constructor
  · intro t
    cases t with
    | completed => exact Or.inl rfl
    | failed m => exact Or.inr ⟨m, rfl⟩
  · decide

/-! ### Merge copy into an existing directory (C2)

The merge branch of FileOpWorker.run (src/main.py lines 96-105) walks the
source subtree; for each walked directory it runs
(target/rel).mkdir(parents=True, exist_ok=True) and copies each file with
shutil.copy2(srcf, target/rel/f).  We model directory trees as named maps
and mkdir as creating the entry when absent.  shutil.copy2 overwrites an
existing file, but when its destination argument is an existing
DIRECTORY it does not fail: it redirects the copy into that directory
under the file basename, so target/rel/f/f is written instead of
target/rel/f.  Only two exceptions can abort the walk: mkdir over an
existing file (FileExistsError), and the redirected copyfile landing on
yet another directory (IsADirectoryError); both are modelled as a None
outcome, since either aborts the batch. -/

/-- A destination-tree node: a file with content, or a directory given by
its named children. -/
inductive Node where
  | file (data : Nat)
  | dir (children : List (String × Node))

/-- First-match lookup by name, the model of name resolution in a
directory. -/
def lookupKV {α : Type} (k : String) : List (String × α) → Option α
  | [] => none
  | (k2, v) :: es => if k = k2 then some v else lookupKV k es

/-- Create or overwrite the entry called k, leaving every other name
untouched. -/
def setEntry {α : Type} (k : String) (v : α) : List (String × α) → List (String × α)
  | [] => [(k, v)]
  | (k2, v2) :: es => if k = k2 then (k, v) :: es else (k2, v2) :: setEntry k v es

mutual

/-- Merging one source child named name into the destination child list.
A source file normally overwrites the same-named destination entry; when
that entry is a directory, shutil.copy2 redirects the copy into it under
the same basename, overwriting there and raising IsADirectoryError only
when that inner name is again a directory.  A source directory is merged
into the same-named destination directory, created fresh when absent, and
mkdir fails on a same-named destination file. -/
def mergeChild (dstCs : List (String × Node)) (name : String) : Node →
    Option (List (String × Node))
  | .file d =>
      match lookupKV name dstCs with
      | some (.dir innerCs) =>
          match lookupKV name innerCs with
          | some (.dir _) => none
          | _ => some (setEntry name (.dir (setEntry name (.file d) innerCs)) dstCs)
      | _ => some (setEntry name (.file d) dstCs)
  | .dir cs =>
      match lookupKV name dstCs with
      | some (.file _) => none
      | some (.dir dcs) =>
          match mergeList cs dcs with
          | some r => some (setEntry name (.dir r) dstCs)
          | none => none
      | none =>
          match mergeList cs [] with
          | some r => some (setEntry name (.dir r) dstCs)
          | none => none

/-- Merging a whole source child list into a destination child list,
child by child in source order. -/
def mergeList (srcCs dstCs : List (String × Node)) : Option (List (String × Node)) :=
  match srcCs with
  | [] => some dstCs
  | (n, c) :: rest =>
      match mergeChild dstCs n c with
      | some d1 => mergeList rest d1
      | none => none

end

/-- Resolving a relative path inside a node. -/
def getPath (n : Node) : List String → Option Node
  | [] => some n
  | x :: xs =>
      match n with
      | .file _ => none
      | .dir cs =>
          match lookupKV x cs with
          | some c => getPath c xs
          | none => none

mutual

/-- Well-formedness of a real directory tree: sibling names are distinct
at every level. -/
def nodeWF : Node → Bool
  | .file _ => true
  | .dir cs => listWF cs

def listWF : List (String × Node) → Bool
  | [] => true
  | (k, c) :: es => (lookupKV k es).isNone && nodeWF c && listWF es

end

/-- The children of the destination entry a source directory merges into:
the children of a same-named destination directory, or nothing when the
name is absent (the directory is then created empty by mkdir). -/
def dstChildren : Option Node → List (String × Node)
  | some (.dir l) => l
  | _ => []

/-- No source file anywhere in the subtree meets a same-named destination
directory — the condition under which shutil.copy2 never redirects a copy
into a directory and every file really lands in place. -/
def noClash : List (String × Node) → List (String × Node) → Bool
  | [], _ => true
  | (n, c) :: rest, dstCs =>
      (match c, lookupKV n dstCs with
       | Node.file _, some (Node.dir _) => false
       | Node.dir cs, some (Node.dir dcs) => noClash cs dcs
       | _, _ => true) && noClash rest dstCs

lemma lookup_setEntry {α : Type} (k k2 : String) (v : α) :
    ∀ l : List (String × α),
      lookupKV k2 (setEntry k v l) = if k2 = k then some v else lookupKV k2 l := by
  intro l
  induction l with
  | nil =>
      simp only [setEntry, lookupKV]
  | cons p es ih =>
      rcases p with ⟨k3, v3⟩
      simp only [setEntry]
      by_cases h1 : k = k3
      · subst h1
        simp only [if_pos rfl, lookupKV]
        by_cases h2 : k2 = k <;> simp [h2]
      · rw [if_neg h1]
        simp only [lookupKV, ih]
        by_cases h2 : k2 = k3 <;> by_cases h3 : k2 = k
        · exact absurd (h3.symm.trans h2) h1
        · simp [h2, h3, show ¬ k3 = k from fun hc => h1 hc.symm]
        · simp [h2, h3, h1]
        · simp [h2, h3]

lemma mergeChild_shape (dstCs : List (String × Node)) (n : String) (c : Node)
    (d1 : List (String × Node)) (h : mergeChild dstCs n c = some d1) :
    ∃ v, d1 = setEntry n v dstCs := by
  cases c with
  | file d =>
      simp only [mergeChild] at h
      split at h
      · rename_i innerCs hldst
        split at h
        · exact absurd h (by simp)
        · exact ⟨Node.dir (setEntry n (Node.file d) innerCs), (Option.some.inj h).symm⟩
      · exact ⟨Node.file d, (Option.some.inj h).symm⟩
  | dir cs =>
      simp only [mergeChild] at h
      split at h
      · exact absurd h (by simp)
      · split at h
        · rename_i r hr
          exact ⟨Node.dir r, (Option.some.inj h).symm⟩
        · exact absurd h (by simp)
      · split at h
        · rename_i r hr
          exact ⟨Node.dir r, (Option.some.inj h).symm⟩
        · exact absurd h (by simp)

lemma mergeList_lookup_fresh (n : String) :
    ∀ (srcCs dstCs R : List (String × Node)),
      mergeList srcCs dstCs = some R → lookupKV n srcCs = none →
      lookupKV n R = lookupKV n dstCs := by
  intro srcCs
  induction srcCs with
  | nil =>
      intro dstCs R h hn
      simp only [mergeList] at h
      rw [← Option.some.inj h]
  | cons p rest ih =>
      rcases p with ⟨m, c⟩
      intro dstCs R h hn
      simp only [lookupKV] at hn
      split at hn
      · exact absurd hn (by simp)
      · rename_i hne
        simp only [mergeList] at h
        split at h
        · rename_i d1 hd1
          obtain ⟨v, hv⟩ := mergeChild_shape dstCs m c d1 hd1
          rw [ih d1 R h hn, hv, lookup_setEntry, if_neg hne]
        · exact absurd h (by simp)

lemma listWF_lookup (k : String) :
    ∀ l : List (String × Node), listWF l = true →
      ∀ c, lookupKV k l = some c → nodeWF c = true := by
  intro l
  induction l with
  | nil => intro _ c hc; simp [lookupKV] at hc
  | cons p es ih =>
      rcases p with ⟨k2, v2⟩
      intro hwf c hc
      simp only [listWF, Bool.and_eq_true] at hwf
      obtain ⟨⟨_, hv2⟩, hes⟩ := hwf
      simp only [lookupKV] at hc
      split at hc
      · rw [← Option.some.inj hc]; exact hv2
      · exact ih hes c hc

lemma noClash_nil_dst : ∀ cs : List (String × Node), noClash cs [] = true := by
  intro cs
  induction cs with
  | nil => simp [noClash]
  | cons p rest ih =>
      rcases p with ⟨n, c⟩
      unfold noClash
      cases c <;> simp [lookupKV, ih]

lemma noClash_lookup_file (n : String) :
    ∀ (srcCs dstCs : List (String × Node)), noClash srcCs dstCs = true →
      ∀ d, lookupKV n srcCs = some (Node.file d) →
        ∀ l, lookupKV n dstCs ≠ some (Node.dir l) := by
  intro srcCs
  induction srcCs with
  | nil => intro _ _ d hd; simp [lookupKV] at hd
  | cons p rest ih =>
      rcases p with ⟨m, c0⟩
      intro dstCs hnc d hd l hcontra
      unfold noClash at hnc
      simp only [Bool.and_eq_true] at hnc
      obtain ⟨hhead, hrest⟩ := hnc
      simp only [lookupKV] at hd
      split at hd
      · rename_i heq
        have hc0 : c0 = Node.file d := Option.some.inj hd
        subst hc0
        rw [← heq, hcontra] at hhead
        simp at hhead
      · exact ih dstCs hrest d hd l hcontra

lemma noClash_lookup_dir (n : String) :
    ∀ (srcCs dstCs : List (String × Node)), noClash srcCs dstCs = true →
      ∀ cs, lookupKV n srcCs = some (Node.dir cs) →
        (∀ e, lookupKV n dstCs ≠ some (Node.file e)) →
        noClash cs (dstChildren (lookupKV n dstCs)) = true := by
  intro srcCs
  induction srcCs with
  | nil => intro _ _ cs hcs; simp [lookupKV] at hcs
  | cons p rest ih =>
      rcases p with ⟨m, c0⟩
      intro dstCs hnc cs hcs hnf
      unfold noClash at hnc
      simp only [Bool.and_eq_true] at hnc
      obtain ⟨hhead, hrest⟩ := hnc
      simp only [lookupKV] at hcs
      split at hcs
      · rename_i heq
        have hc0 : c0 = Node.dir cs := Option.some.inj hcs
        subst hc0
        rw [← heq] at hhead
        rcases hdl : lookupKV n dstCs with _ | c2
        · simp only [dstChildren]
          exact noClash_nil_dst cs
        · cases c2 with
          | file e => exact absurd hdl (hnf e)
          | dir dcs =>
              rw [hdl] at hhead
              simp only [dstChildren]
              simpa using hhead
      · exact ih dstCs hrest cs hcs hnf

lemma mergeList_lookup_file (n : String) :
    ∀ (srcCs dstCs R : List (String × Node)),
      mergeList srcCs dstCs = some R → listWF srcCs = true →
      ∀ d, lookupKV n srcCs = some (Node.file d) →
        (∀ l, lookupKV n dstCs ≠ some (Node.dir l)) →
        lookupKV n R = some (Node.file d) := by
  intro srcCs
  induction srcCs with
  | nil => intro _ _ _ _ d hd _; simp [lookupKV] at hd
  | cons p rest ih =>
      rcases p with ⟨m, c0⟩
      intro dstCs R h hwf d hd hnd
      simp only [listWF, Bool.and_eq_true] at hwf
      obtain ⟨⟨hfresh, hwfc0⟩, hwfrest⟩ := hwf
      simp only [mergeList] at h
      split at h
      · rename_i d1 hd1
        simp only [lookupKV] at hd
        split at hd
        · rename_i heq
          have hc0 : c0 = Node.file d := Option.some.inj hd
          subst hc0
          have hnr : lookupKV n rest = none := by
            rw [heq]; exact Option.isNone_iff_eq_none.mp hfresh
          have hRd1 : lookupKV n R = lookupKV n d1 :=
            mergeList_lookup_fresh n rest d1 R h hnr
          simp only [mergeChild] at hd1
          split at hd1
          · rename_i innerCs hldst
            rw [← heq] at hldst
            exact absurd hldst (hnd innerCs)
          · have hd1v : d1 = setEntry m (Node.file d) dstCs := (Option.some.inj hd1).symm
            rw [hRd1, hd1v, lookup_setEntry, if_pos heq]
        · rename_i hne
          obtain ⟨v, hv⟩ := mergeChild_shape dstCs m c0 d1 hd1
          have hl : lookupKV n d1 = lookupKV n dstCs := by
            rw [hv, lookup_setEntry, if_neg hne]
          refine ih d1 R h hwfrest d hd ?_
          rw [hl]
          exact hnd
      · exact absurd h (by simp)

lemma mergeList_lookup_dir (n : String) :
    ∀ (srcCs dstCs R : List (String × Node)),
      mergeList srcCs dstCs = some R → listWF srcCs = true →
      ∀ cs, lookupKV n srcCs = some (Node.dir cs) →
        ∃ dcs, lookupKV n R = some (Node.dir dcs) ∧
          mergeList cs (dstChildren (lookupKV n dstCs)) = some dcs ∧
          ∀ e, lookupKV n dstCs ≠ some (Node.file e) := by
  intro srcCs
  induction srcCs with
  | nil => intro _ _ _ _ cs hcs; simp [lookupKV] at hcs
  | cons p rest ih =>
      rcases p with ⟨m, c0⟩
      intro dstCs R h hwf cs hcs
      simp only [listWF, Bool.and_eq_true] at hwf
      obtain ⟨⟨hfresh, hwfc0⟩, hwfrest⟩ := hwf
      simp only [mergeList] at h
      split at h
      · rename_i d1 hd1
        simp only [lookupKV] at hcs
        split at hcs
        · rename_i heq
          have hc0 : c0 = Node.dir cs := Option.some.inj hcs
          subst hc0
          have hnr : lookupKV n rest = none := by
            rw [heq]; exact Option.isNone_iff_eq_none.mp hfresh
          have hRd1 : lookupKV n R = lookupKV n d1 :=
            mergeList_lookup_fresh n rest d1 R h hnr
          simp only [mergeChild] at hd1
          split at hd1
          · exact absurd hd1 (by simp)
          · rename_i dcs0 hldst
            split at hd1
            · rename_i r hr
              refine ⟨r, ?_, ?_, ?_⟩
              · rw [hRd1, ← Option.some.inj hd1, lookup_setEntry, if_pos heq]
              · rw [heq, hldst]
                exact hr
              · intro e hcontra
                rw [heq, hldst] at hcontra
                exact absurd (Option.some.inj hcontra) (by intro hx; cases hx)
            · exact absurd hd1 (by simp)
          · rename_i hldst
            split at hd1
            · rename_i r hr
              refine ⟨r, ?_, ?_, ?_⟩
              · rw [hRd1, ← Option.some.inj hd1, lookup_setEntry, if_pos heq]
              · rw [heq, hldst]
                exact hr
              · intro e hcontra
                rw [heq, hldst] at hcontra
                exact absurd hcontra (by simp)
            · exact absurd hd1 (by simp)
        · rename_i hne
          obtain ⟨dcs, hR, hm2, hnf⟩ := ih d1 R h hwfrest cs hcs
          obtain ⟨v, hv⟩ := mergeChild_shape dstCs m c0 d1 hd1
          have hl : lookupKV n d1 = lookupKV n dstCs := by
            rw [hv, lookup_setEntry, if_neg hne]
          refine ⟨dcs, hR, ?_, ?_⟩
          · rw [← hl]; exact hm2
          · rw [← hl]; exact hnf
      · exact absurd h (by simp)

lemma merge_file_paths :
    ∀ (r : List String) (srcCs dstCs R : List (String × Node)),
      mergeList srcCs dstCs = some R → listWF srcCs = true →
      noClash srcCs dstCs = true →
      ∀ d, getPath (Node.dir srcCs) r = some (Node.file d) →
        getPath (Node.dir R) r = some (Node.file d) := by
  intro r
  induction r with
  | nil =>
      intro srcCs dstCs R _ _ _ d hsrc
      simp [getPath] at hsrc
  | cons x xs ih =>
      intro srcCs dstCs R hmerge hwf hnc d hsrc
      simp only [getPath] at hsrc
      rcases hl : lookupKV x srcCs with _ | c
      · rw [hl] at hsrc; simp at hsrc
      · rw [hl] at hsrc
        cases c with
        | file d0 =>
            cases xs with
            | nil =>
                simp only [getPath] at hsrc
                have hnd := noClash_lookup_file x srcCs dstCs hnc d0 hl
                have hR := mergeList_lookup_file x srcCs dstCs R hmerge hwf d0 hl hnd
                simp only [getPath, hR]
                exact hsrc
            | cons y ys => simp [getPath] at hsrc
        | dir cs =>
            obtain ⟨dcs, hR, hm2, hnf⟩ :=
              mergeList_lookup_dir x srcCs dstCs R hmerge hwf cs hl
            have hwf2 : listWF cs = true := by
              have := listWF_lookup x srcCs hwf _ hl
              simpa [nodeWF] using this
            have hnc2 := noClash_lookup_dir x srcCs dstCs hnc cs hl hnf
            have hrec := ih cs (dstChildren (lookupKV x dstCs)) dcs hm2 hwf2 hnc2 d hsrc
            simp only [getPath, hR]
            exact hrec

lemma merge_dir_paths :
    ∀ (r : List String) (srcCs dstCs R : List (String × Node)),
      mergeList srcCs dstCs = some R → listWF srcCs = true →
      ∀ cs0, getPath (Node.dir srcCs) r = some (Node.dir cs0) →
        ∃ cs1, getPath (Node.dir R) r = some (Node.dir cs1) := by
  intro r
  induction r with
  | nil =>
      intro srcCs dstCs R _ _ cs0 _
      exact ⟨R, rfl⟩
  | cons x xs ih =>
      intro srcCs dstCs R hmerge hwf cs0 hsrc
      simp only [getPath] at hsrc
      rcases hl : lookupKV x srcCs with _ | c
      · rw [hl] at hsrc; simp at hsrc
      · rw [hl] at hsrc
        cases c with
        | file d0 =>
            cases xs with
            | nil => simp [getPath] at hsrc
            | cons y ys => simp [getPath] at hsrc
        | dir cs =>
            obtain ⟨dcs, hR, hm2, _⟩ :=
              mergeList_lookup_dir x srcCs dstCs R hmerge hwf cs hl
            have hwf2 : listWF cs = true := by
              have := listWF_lookup x srcCs hwf _ hl
              simpa [nodeWF] using this
            obtain ⟨cs1, hrec⟩ :=
              ih cs (dstChildren (lookupKV x dstCs)) dcs hm2 hwf2 cs0 hsrc
            refine ⟨cs1, ?_⟩
            simp only [getPath, hR]
            exact hrec

lemma merge_frame :
    ∀ (r : List String), r ≠ [] →
      ∀ (srcCs dstCs R : List (String × Node)),
        mergeList srcCs dstCs = some R → listWF srcCs = true →
        noClash srcCs dstCs = true →
        getPath (Node.dir srcCs) r = none →
        getPath (Node.dir R) r = getPath (Node.dir dstCs) r := by
  intro r
  induction r with
  | nil => intro hne; exact absurd rfl hne
  | cons x xs ih =>
      intro _ srcCs dstCs R hmerge hwf hnc hsrc
      simp only [getPath] at hsrc
      rcases hl : lookupKV x srcCs with _ | c
      · rw [hl] at hsrc
        have hR : lookupKV x R = lookupKV x dstCs :=
          mergeList_lookup_fresh x srcCs dstCs R hmerge hl
        simp only [getPath, hR]
      · rw [hl] at hsrc
        cases c with
        | file d0 =>
            cases xs with
            | nil => simp [getPath] at hsrc
            | cons y ys =>
                have hnd := noClash_lookup_file x srcCs dstCs hnc d0 hl
                have hR := mergeList_lookup_file x srcCs dstCs R hmerge hwf d0 hl hnd
                simp only [getPath, hR]
                rcases hdl : lookupKV x dstCs with _ | c2
                · rfl
                · cases c2 with
                  | file e => rfl
                  | dir l => exact absurd hdl (hnd l)
        | dir cs =>
            obtain ⟨dcs, hR, hm2, hnf⟩ :=
              mergeList_lookup_dir x srcCs dstCs R hmerge hwf cs hl
            have hwf2 : listWF cs = true := by
              have := listWF_lookup x srcCs hwf _ hl
              simpa [nodeWF] using this
            have hnc2 := noClash_lookup_dir x srcCs dstCs hnc cs hl hnf
            cases xs with
            | nil => simp [getPath] at hsrc
            | cons y ys =>
                have hrec := ih (by simp) cs (dstChildren (lookupKV x dstCs)) dcs
                  hm2 hwf2 hnc2 hsrc
                simp only [getPath, hR]
                rcases hdl : lookupKV x dstCs with _ | c2
                · rw [hdl] at hrec
                  simp only [dstChildren] at hrec
                  simp only [getPath, lookupKV] at hrec
                  dsimp only
                  exact hrec
                · cases c2 with
                  | file e => exact absurd hdl (hnf e)
                  | dir l =>
                      rw [hdl] at hrec
                      simp only [dstChildren] at hrec
                      simp only [getPath] at hrec
                      dsimp only
                      exact hrec

/-- C2 (counterexample): merging source [a: file 1] into destination
[a: empty directory] SUCCEEDS — shutil.copy2 does not fail on an existing
directory destination but redirects the copy into it — and the result
holds a directory at path [a] with the file tucked inside at [a, a].  So
on a successful run a source file is not copied into place, and the
destination gains an entry at a path ([a, a]) where the source has none,
refuting the claim as stated. -/
theorem merge_copy_into_existing_dir_counterexample :
    mergeList [("a", Node.file 1)] [("a", Node.dir [])] =
      some [("a", Node.dir [("a", Node.file 1)])] ∧
    listWF [("a", Node.file 1)] = true ∧
    getPath (Node.dir [("a", Node.file 1)]) ["a"] = some (Node.file 1) ∧
    getPath (Node.dir [("a", Node.dir [("a", Node.file 1)])]) ["a"] ≠
      some (Node.file 1) ∧
    getPath (Node.dir [("a", Node.file 1)]) ["a", "a"] = none ∧
    getPath (Node.dir [("a", Node.dir [])]) ["a", "a"] = none ∧
    getPath (Node.dir [("a", Node.dir [("a", Node.file 1)])]) ["a", "a"] =
      some (Node.file 1) := by
  refine ⟨?_, ?_, ?_, ?_, ?_, ?_, ?_⟩
  · simp [mergeList, mergeChild, lookupKV, setEntry]
  · simp [listWF, nodeWF, lookupKV]
  · simp [getPath, lookupKV]
  · simp [getPath, lookupKV]
  · simp [getPath, lookupKV]
  · simp [getPath, lookupKV]
  · simp [getPath, lookupKV]

/-- C2 (amended): when a directory is copied into a destination where its
target name already exists, a successful merge creates every source
directory path as a directory in the result unconditionally; and provided
no source file meets a same-named destination directory, every source
file is copied into place (overwriting a same-named destination file) and
every destination path with no corresponding source entry resolves
exactly as before the merge — nothing unrelated is deleted or modified.
When a source file does meet a same-named destination directory,
shutil.copy2 instead drops the file inside that directory under its own
name, so the file is not copied into place and a destination path with no
source counterpart can change. -/
theorem merge_copy_preserves_and_overwrites
    (srcCs dstCs R : List (String × Node))
    (hmerge : mergeList srcCs dstCs = some R)
    (hwf : listWF srcCs = true) :
    (∀ r cs0, getPath (Node.dir srcCs) r = some (Node.dir cs0) →
      ∃ cs1, getPath (Node.dir R) r = some (Node.dir cs1)) ∧
    (noClash srcCs dstCs = true →
      (∀ r d, getPath (Node.dir srcCs) r = some (Node.file d) →
        getPath (Node.dir R) r = some (Node.file d)) ∧
      (∀ r, r ≠ [] → getPath (Node.dir srcCs) r = none →
        getPath (Node.dir R) r = getPath (Node.dir dstCs) r)) := by
  refine ⟨?_, fun hnc => ⟨?_, ?_⟩⟩
  · intro r cs0 h
    exact merge_dir_paths r srcCs dstCs R hmerge hwf cs0 h
  · intro r d h
    exact merge_file_paths r srcCs dstCs R hmerge hwf hnc d h
  · intro r hne h
    exact merge_frame r hne srcCs dstCs R hmerge hwf hnc h

theorem merge_copy_preserves_and_overwrites_witness :
    getPath (Node.dir [("x", Node.file 9), ("a", Node.file 1)]) ["a"] =
      some (Node.file 1) :=
  ((merge_copy_preserves_and_overwrites
    [("a", Node.file 1)] [("x", Node.file 9)]
    [("x", Node.file 9), ("a", Node.file 1)]
    (by simp [mergeList, mergeChild, lookupKV, setEntry])
    (by simp [listWF, nodeWF, lookupKV])).2
    (by simp [noClash, lookupKV])).1 ["a"] 1
    (by simp [getPath, lookupKV])

/-! ### Trash lifecycle (C4)

FileTab.restore_from_trash (src/main.py lines 428-454) locates the
metadata record info/(name + .trashinfo); when it is missing it warns and
returns without moving anything.  Otherwise it reads the original path
from the Path= field, asks before overwriting an existing file at that
path, moves the trashed item back with shutil.move and deletes the record.
FileTab.delete_selected (lines 646-657) delegates the move into the trash
to the external send2trash library, which is not part of this repository,
so that direction is modelled from the spec. -/

/-- The state the trash operations act on: the main filesystem (absolute
path to file content), the trash content store (stored name to content)
and the metadata store (stored name to the recorded original path). -/
structure TrashState where
  fsFiles : String → Option Nat
  trashFiles : String → Option Nat
  trashInfo : String → Option String

/-- Point update of a map. -/
def updateFn {α : Type} (m : String → Option α) (k : String) (v : Option α) :
    String → Option α :=
  fun q => if q = k then v else m q

/-- Modelled from the spec: moveToTrash relocates the item into the trash
content store and writes a metadata record holding its original path,
keyed by the stored name (the code delegates this direction to the
external send2trash library; §4.2 and §6 of the spec describe the
resulting layout). -/
def moveToTrash (s : TrashState) (orig name : String) : TrashState :=
  match s.fsFiles orig with
  | none => s
  | some c =>
      { fsFiles := updateFn s.fsFiles orig none,
        trashFiles := updateFn s.trashFiles name (some c),
        trashInfo := updateFn s.trashInfo name (some orig) }

/-- FileTab.restore_from_trash: missing metadata means warn-and-return; a
pre-existing file at the original path is only overwritten when the user
confirms (overwriteOk); a missing trashed item makes shutil.move raise,
which the handler turns into a warning with no state change; otherwise
the item moves back to its original path and the record is deleted. -/
def restore_from_trash (s : TrashState) (name : String) (overwriteOk : Bool) :
    TrashState × Bool :=
  match s.trashInfo name with
  | none => (s, false)
  | some orig =>
      if (s.fsFiles orig).isSome && !overwriteOk then (s, false)
      else
        match s.trashFiles name with
        | none => (s, false)
        | some c =>
            ({ fsFiles := updateFn s.fsFiles orig (some c),
               trashFiles := updateFn s.trashFiles name none,
               trashInfo := updateFn s.trashInfo name none }, true)

/-- C4: trashing a file and then restoring its entry puts the file back at
its original path with its original content and deletes the metadata
record, leaving no leftover record for the stored name; and restore on any
state whose metadata record is missing performs no move at all. -/
theorem trash_restore_round_trip (orig name : String) (c : Nat) (b : Bool) :
    (∀ s : TrashState, s.fsFiles orig = some c →
      (restore_from_trash (moveToTrash s orig name) name b).2 = true ∧
      (restore_from_trash (moveToTrash s orig name) name b).1.fsFiles orig = some c ∧
      (restore_from_trash (moveToTrash s orig name) name b).1.trashInfo name = none ∧
      (restore_from_trash (moveToTrash s orig name) name b).1.trashFiles name = none) ∧
    (∀ s : TrashState, s.trashInfo name = none →
      restore_from_trash s name b = (s, false)) := by
  constructor
  · intro s hs
    have hm : moveToTrash s orig name =
        { fsFiles := updateFn s.fsFiles orig none,
          trashFiles := updateFn s.trashFiles name (some c),
          trashInfo := updateFn s.trashInfo name (some orig) } := by
      simp only [moveToTrash, hs]
    have hinfo : (moveToTrash s orig name).trashInfo name = some orig := by
      rw [hm]; simp [updateFn]
    have hfs : (moveToTrash s orig name).fsFiles orig = none := by
      rw [hm]; simp [updateFn]
    have htr : (moveToTrash s orig name).trashFiles name = some c := by
      rw [hm]; simp [updateFn]
    simp only [restore_from_trash, hinfo, hfs, htr, Option.isSome_none,
      Bool.false_and, Bool.false_eq_true, if_false]
    refine ⟨?_, ?_, ?_, ?_⟩ <;> simp [updateFn]
  · intro s hs
    simp only [restore_from_trash, hs]

theorem trash_restore_round_trip_witness :
    (restore_from_trash
      (moveToTrash
        { fsFiles := fun q => if q = "f" then some 7 else none,
          trashFiles := fun _ => none,
          trashInfo := fun _ => none } "f" "f") "f" false).1.fsFiles "f" = some 7 :=
  ((trash_restore_round_trip "f" "f" 7 false).1
    { fsFiles := fun q => if q = "f" then some 7 else none,
      trashFiles := fun _ => none,
      trashInfo := fun _ => none } (by simp)).2.1

/-! ### Device mount state (C5, C6)

FileTab.is_device_mounted (src/main.py lines 908-918) reads /proc/mounts
and tests `str(device_path) in mount` for each line — the Python substring
operator, not a comparison against the device field.
FileTab.mount_device / unmount_device (lines 920-997) write a two-line
helper script whose single action line invokes udisksctl, run it through
pkexec, treat exit code 0 as success, and on failure show a message built
from the device path and the raw stderr of the helper. -/

/-- Bool test: needle is a prefix of hay. -/
def listIsPrefix : List Char → List Char → Bool
  | [], _ => true
  | _ :: _, [] => false
  | a :: xs, b :: ys => a == b && listIsPrefix xs ys

/-- Bool test: needle occurs as a contiguous substring of hay — the Python
`in` operator on strings. -/
def listIsSub (needle : List Char) : List Char → Bool
  | [] => needle.isEmpty
  | c :: t => listIsPrefix needle (c :: t) || listIsSub needle t

def strContains (hay needle : String) : Bool :=
  listIsSub needle.toList hay.toList

/-- FileTab.is_device_mounted: scan the lines of /proc/mounts and report
mounted as soon as the device path occurs as a substring of a line. -/
def is_device_mounted (mounts : List String) (device_path : String) : Bool :=
  mounts.any (fun line => strContains line device_path)

/-- Splitting a mount-table line at spaces. -/
def splitOnSpace : List Char → List (List Char)
  | [] => [[]]
  | c :: rest =>
      let r := splitOnSpace rest
      if c = ' ' then [] :: r
      else
        match r with
        | [] => [[c]]
        | g :: gs => (c :: g) :: gs

/-- The device field of a mount-table line: its first column. -/
def mountLineDevice (line : String) : List Char :=
  (splitOnSpace line.toList).headD []

/-- Follows the spec words, not the code: a device is mounted exactly when
it is present as an exact device-path entry of the mount table, i.e. when
the device field of some line equals the queried path. -/
def isMountedSpec (mounts : List String) (device_path : String) : Bool :=
  mounts.any (fun line => mountLineDevice line == device_path.toList)

/-- A mount table in which only the partition /dev/sdb1 is mounted. -/
def demoMounts : List String := ["/dev/sdb1 /media/usb ext4 rw,relatime 0 0"]

/-- C5: the code reports the unmounted whole disk /dev/sdb as mounted
because /dev/sdb is a substring of the mount line of its partition
/dev/sdb1, while exact device-path presence — what the spec requires —
answers false.  The substring test of is_device_mounted is the bug. -/
theorem is_device_mounted_substring_bug :
    is_device_mounted demoMounts "/dev/sdb" = true ∧
    isMountedSpec demoMounts "/dev/sdb" = false := by
  constructor <;> decide

/-- The outcome of running the privileged helper. -/
structure ProcResult where
  returncode : Int
  stdout : String
  stderr : String

/-- The helper script written by mount_device: a shebang line and exactly
one udisksctl action line. -/
def mount_script_lines (device_path : String) : List String :=
  ["#!/bin/bash", "udisksctl mount -b " ++ device_path]

/-- The helper script written by unmount_device. -/
def unmount_script_lines (device_path : String) : List String :=
  ["#!/bin/bash", "udisksctl unmount -b " ++ device_path]

/-- FileTab.mount_device after the pkexec call returns: exit code 0 means
success (with a status message), anything else means failure with a
warning message that embeds the helper stderr verbatim. -/
def mount_device (device_path : String) (result : ProcResult) : Bool × String :=
  if result.returncode = 0 then
    (true, "Dispositivo montado: " ++ device_path)
  else
    (false, "No se pudo montar " ++ device_path ++ ":\n" ++ result.stderr)

/-- FileTab.unmount_device after the pkexec call returns; the Python
function returns None, so the Bool records which of the two notification
paths (status message versus warning dialog) the code takes. -/
def unmount_device (device_path : String) (result : ProcResult) : Bool × String :=
  if result.returncode = 0 then
    (true, "Dispositivo desmontado: " ++ device_path)
  else
    (false, "No se pudo desmontar " ++ device_path ++ ":\n" ++ result.stderr)

/-- A line of the helper script that performs a mount or unmount action. -/
def isActionLine (l : String) : Bool :=
  listIsPrefix ("udisksctl ".toList) l.toList

/-- C6: mount and unmount report success exactly when the helper exits
with code 0; on a non-zero exit the failure message carries the helper
stderr verbatim; and each generated helper script contains exactly one
mount or unmount action line. -/
theorem mount_unmount_exit_code_contract (dev : String) (r : ProcResult) :
    ((mount_device dev r).1 = true ↔ r.returncode = 0) ∧
    ((unmount_device dev r).1 = true ↔ r.returncode = 0) ∧
    (r.returncode ≠ 0 →
      (mount_device dev r).2 = "No se pudo montar " ++ dev ++ ":\n" ++ r.stderr) ∧
    (r.returncode ≠ 0 →
      (unmount_device dev r).2 = "No se pudo desmontar " ++ dev ++ ":\n" ++ r.stderr) ∧
    (mount_script_lines dev).countP (fun l => isActionLine l) = 1 ∧
    (unmount_script_lines dev).countP (fun l => isActionLine l) = 1 := by
  refine ⟨?_, ?_, ?_, ?_, ?_, ?_⟩
  · by_cases h : r.returncode = 0 <;> simp [mount_device, h]
  · by_cases h : r.returncode = 0 <;> simp [unmount_device, h]
  · intro h; simp [mount_device, h]
  · intro h; simp [unmount_device, h]
  · simp [mount_script_lines, List.countP_cons, List.countP_nil,
      isActionLine, listIsPrefix, String.toList]
  · simp [unmount_script_lines, List.countP_cons, List.countP_nil,
      isActionLine, listIsPrefix, String.toList]

theorem mount_unmount_exit_code_contract_witness :
    (mount_device "/dev/sdb1" { returncode := 1, stdout := "", stderr := "e" }).2 =
      "No se pudo montar " ++ "/dev/sdb1" ++ ":\n" ++ "e" :=
  (mount_unmount_exit_code_contract "/dev/sdb1"
    { returncode := 1, stdout := "", stderr := "e" }).2.2.1 (by decide)

end PyExplorer
